/-
Verification of the douyin_crawler core against its design document.

The definitions below are shallow embeddings of the Python source:
  * `harvestTrace`        embeds `Client.get_aweme_all_comments` (src/client.py),
    as an event trace of one harvest run (fetches, collected-count updates,
    callback invocations, sleeps and yielded batches);
  * `processReqParams`    embeds `Client.__process_req_params` (src/client.py),
    with the opaque external evaluator (libs/douyin.js) as a function argument
    and the parameter dict as an ordered association list with Python `dict`
    update semantics;
  * `getTrackSimple` / `getTracksEased` embed `get_track_simple` and
    `_get_tracks` (src/utils.py); the simple policy is modelled over exact
    rationals (the Python floats coincide with exact arithmetic on the inputs
    evaluated here, every rounding and comparison being far from a boundary),
    the eased policy over the reals;
  * `cropWhite` / `discern` embed `Slide.clear_white` and `Slide.discern`
    (src/utils.py), with the OpenCV primitives as an abstract record of
    fallible functions;
  * `OrcStep` / `Reach`   embed the semaphore discipline of
    `Crawler.batch_get_note_comments` / `Crawler.get_specified_awemes`
    (src/crawler.py) as a transition system over task phases.
-/
import Mathlib

set_option maxRecDepth 8000
set_option maxHeartbeats 1600000

namespace DouyinCrawler

/-! ## Comment harvester (src/client.py, `Client.get_aweme_all_comments`) -/

/-- One comment as the harvester sees it: only the `text` field is inspected
(`comment.get("text", "")`); all other fields are carried opaquely and are
irrelevant to the control flow, so the embedding keeps just the text. -/
structure Comment where
  text : String
deriving DecidableEq

/-- One fetched comment page: `has_more` (an integer flag, absent defaults
to 0), the next `cursor`, and the raw comment list. -/
structure Page where
  hasMore : Nat
  cursor : Nat
  comments : List Comment
deriving DecidableEq

/-- Python substring helper: `listStarts n h` is true iff `n` is an initial
segment of `h` (used to implement the `in` operator on strings). -/
def listStarts : List Char → List Char → Bool
  | [], _ => true
  | _ :: _, [] => false
  | c :: cs, d :: ds => c = d && listStarts cs ds

/-- Python `needle in hay` for strings: substring containment. -/
def listContains (needle : List Char) : List Char → Bool
  | [] => needle.isEmpty
  | d :: ds => listStarts needle (d :: ds) || listContains needle ds

/-- The `while` guard of the harvest loop:
`max_comments is None or collected < max_comments or max_comments == 0`. -/
def QuotaOpen (maxC : Option Nat) (collected : Nat) : Prop :=
  match maxC with
  | none => True
  | some m => collected < m ∨ m = 0

instance (maxC : Option Nat) (collected : Nat) : Decidable (QuotaOpen maxC collected) :=
  match maxC with
  | none => .isTrue trivial
  | some _ => inferInstanceAs (Decidable (_ ∨ _))

/-- The `break` condition after a page is processed:
`max_comments is not None and 0 < max_comments <= collected`. -/
def StopAfter (maxC : Option Nat) (collected : Nat) : Prop :=
  match maxC with
  | none => False
  | some m => 0 < m ∧ m ≤ collected

instance (maxC : Option Nat) (collected : Nat) : Decidable (StopAfter maxC collected) :=
  match maxC with
  | none => .isFalse id
  | some _ => inferInstanceAs (Decidable (_ ∧ _))

/-- The max-comments cutoff applied to a filtered page
(`filtered_comments[:remaining_quota]` when `max_comments` is set and
positive, otherwise the whole list). -/
def truncateByQuota (maxC : Option Nat) (collected : Nat) (l : List Comment) : List Comment :=
  match maxC with
  | some m => if 0 < m then l.take (m - collected) else l
  | none => l

/-- The keyword filter of the harvest loop: with a non-empty keyword list,
keep the comments whose text contains at least one keyword as a substring
(`any(keyword in comment.get("text", "") for keyword in keywords)`);
otherwise keep everything. -/
def filterByKeywords (kws : List String) (l : List Comment) : List Comment :=
  if kws ≠ [] then
    l.filter (fun c => kws.any fun k => listContains k.data c.text.data)
  else l

/-- Observable events of one harvest run, in program order: a page fetch at a
cursor, an update of `collected_comments_count`, a callback invocation with
the raw page, the rate-limiting sleep, and a batch handed to the caller by
`yield`. -/
inductive Event where
  | fetch (cursor : Nat)
  | collect (count : Nat)
  | callback (raw : List Comment)
  | sleep
  | yielded (batch : List Comment)
deriving DecidableEq

/-- Trace semantics of `Client.get_aweme_all_comments`.  `fetch` maps a cursor
to the page the platform returns for it (the cursor is the only request input
that varies across iterations).  `cb` records whether a callback was supplied.
`fuel` bounds the number of loop iterations (the Python loop can run forever
on an adversarial fetcher); exhausted fuel simply ends the trace.

Faithful control-flow points: an empty page skips filtering, the collected
update, the callback, the sleep and the yield, and re-enters the loop
(`continue`); once the quota is reached the loop `break`s after the callback
but before the `yield`, so the final truncated batch is never yielded; the
sleep happens before the yield.  The unused `is_fetch_sub_comments` branch is
a no-op in the source and is omitted. -/
def harvestTrace (fetch : Nat → Page) (maxC : Option Nat) (kws : List String)
    (cb : Bool) : Nat → Nat → Nat → Nat → List Event
  | 0, _, _, _ => []
  | fuel + 1, hasMore, cursor, collected =>
    if hasMore ≠ 0 ∧ QuotaOpen maxC collected then
      let page := fetch cursor
      if page.comments = [] then
        Event.fetch cursor :: harvestTrace fetch maxC kws cb fuel page.hasMore page.cursor collected
      else
        let filtered := filterByKeywords kws page.comments
        let toAdd := truncateByQuota maxC collected filtered
        let collected' := collected + toAdd.length
        let cbEvents := if cb then [Event.callback page.comments] else []
        if StopAfter maxC collected' then
          Event.fetch cursor :: Event.collect collected' :: cbEvents
        else
          Event.fetch cursor :: Event.collect collected' ::
            (cbEvents ++ [Event.sleep, Event.yielded toAdd]) ++
            harvestTrace fetch maxC kws cb fuel page.hasMore page.cursor collected'
    else []

/-- A full harvest: the loop starts with `has_more = 1`, `cursor = 0` and
`collected = 0`. -/
def harvest (fetch : Nat → Page) (maxC : Option Nat) (kws : List String)
    (cb : Bool) (fuel : Nat) : List Event :=
  harvestTrace fetch maxC kws cb fuel 1 0 0

/-- The batches a harvest trace yields to the caller, in order. -/
def yields (tr : List Event) : List (List Comment) :=
  tr.filterMap fun e =>
    match e with
    | .yielded b => some b
    | _ => none

/-- The successive values of `collected_comments_count` recorded in a trace. -/
def collects (tr : List Event) : List Nat :=
  tr.filterMap fun e =>
    match e with
    | .collect n => some n
    | _ => none

/-- The cursors fetched by a trace, in order. -/
def fetches (tr : List Event) : List Nat :=
  tr.filterMap fun e =>
    match e with
    | .fetch c => some c
    | _ => none

/-- Total number of comments handed to the caller across all yielded batches. -/
def yieldedTotal (tr : List Event) : Nat :=
  ((yields tr).map List.length).sum

@[simp]
theorem collects_nil : collects [] = [] := rfl

@[simp]
theorem collects_cons_fetch (c : Nat) (tr : List Event) :
    collects (Event.fetch c :: tr) = collects tr := rfl

@[simp]
theorem collects_cons_collect (n : Nat) (tr : List Event) :
    collects (Event.collect n :: tr) = n :: collects tr := rfl

@[simp]
theorem collects_cons_callback (raw : List Comment) (tr : List Event) :
    collects (Event.callback raw :: tr) = collects tr := rfl

@[simp]
theorem collects_cons_sleep (tr : List Event) :
    collects (Event.sleep :: tr) = collects tr := rfl

@[simp]
theorem collects_cons_yielded (b : List Comment) (tr : List Event) :
    collects (Event.yielded b :: tr) = collects tr := rfl

@[simp]
theorem collects_append (l1 l2 : List Event) :
    collects (l1 ++ l2) = collects l1 ++ collects l2 :=
  List.filterMap_append ..

@[simp]
theorem yields_nil : yields [] = [] := rfl

@[simp]
theorem yields_cons_fetch (c : Nat) (tr : List Event) :
    yields (Event.fetch c :: tr) = yields tr := rfl

@[simp]
theorem yields_cons_collect (n : Nat) (tr : List Event) :
    yields (Event.collect n :: tr) = yields tr := rfl

@[simp]
theorem yields_cons_callback (raw : List Comment) (tr : List Event) :
    yields (Event.callback raw :: tr) = yields tr := rfl

@[simp]
theorem yields_cons_sleep (tr : List Event) :
    yields (Event.sleep :: tr) = yields tr := rfl

@[simp]
theorem yields_cons_yielded (b : List Comment) (tr : List Event) :
    yields (Event.yielded b :: tr) = b :: yields tr := rfl

@[simp]
theorem yields_append (l1 l2 : List Event) :
    yields (l1 ++ l2) = yields l1 ++ yields l2 :=
  List.filterMap_append ..

/-- The collected counter recorded in a trace only ever grows: starting from
`collected`, every `Event.collect` value is at least the previous one. -/
theorem collects_chain (fetch : Nat → Page) (maxC : Option Nat) (kws : List String) (cb : Bool) :
    ∀ fuel hasMore cursor collected,
      List.Chain' (· ≤ ·)
        (collected :: collects (harvestTrace fetch maxC kws cb fuel hasMore cursor collected)) := by
  intro fuel
  induction fuel with
  | zero => intro hm cur col; simp [harvestTrace]
  | succ n ih =>
    intro hm cur col
    simp only [harvestTrace]
    split
    · split
      · simpa using ih _ _ col
      · split
        · cases cb <;> simp
        · cases cb <;>
            · simp only [collects_cons_fetch, collects_cons_collect, collects_append,
                List.cons_append, List.nil_append, collects_cons_callback, collects_cons_sleep,
                collects_cons_yielded, collects_nil]
              rw [List.chain'_cons]
              exact ⟨Nat.le_add_right .., ih ..⟩
    · simp

/-- With a positive maximum, every yielded batch is truncated to the
remaining quota, so the total handed to the caller from a state that has
already collected `collected` comments is at most `m - collected`. -/
theorem yieldedTotal_le (fetch : Nat → Page) (kws : List String) (cb : Bool) (m : Nat)
    (hm0 : 0 < m) :
    ∀ fuel hasMore cursor collected,
      yieldedTotal (harvestTrace fetch (some m) kws cb fuel hasMore cursor collected) ≤
        m - collected := by
  intro fuel
  induction fuel with
  | zero => intro hm cur col; simp [harvestTrace, yieldedTotal]
  | succ n ih =>
    intro hm cur col
    simp only [harvestTrace]
    split
    · split
      · exact ih _ _ col
      · split
        · cases cb <;> simp [yieldedTotal]
        · have hlen : (truncateByQuota (some m) col (filterByKeywords kws (fetch cur).comments)).length ≤
              m - col := by
            simp only [truncateByQuota, if_pos hm0]
            exact le_trans (List.length_take_le ..) (le_refl _)
          have hrec := ih (fetch cur).hasMore (fetch cur).cursor
            (col + (truncateByQuota (some m) col (filterByKeywords kws (fetch cur).comments)).length)
          cases cb <;>
            · simp only [yieldedTotal, yields_cons_fetch, yields_cons_collect, yields_append,
                List.cons_append, List.nil_append, yields_cons_callback, yields_cons_sleep,
                yields_cons_yielded, yields_nil, List.map_cons, List.map_append, List.sum_cons,
                List.sum_append, List.map_nil, List.sum_nil, Bool.false_eq_true, if_true,
                if_false] at hrec ⊢
              omega
    · simp [yieldedTotal]

/-! ### Concrete two-page scenario of the spec (claim C1) -/

/-- First page of the C1 scenario: 15 comments. -/
def pageOneComments : List Comment := (List.range 15).map fun i => ⟨toString i⟩

/-- Second page of the C1 scenario: 10 comments. -/
def pageTwoComments : List Comment := (List.range 10).map fun i => ⟨toString (100 + i)⟩

/-- The fetcher of the C1 scenario: page 1 at cursor 0 has `has_more = 1` and
cursor 15; page 2 at cursor 15 has `has_more = 0`. -/
def fetchScenarioA : Nat → Page := fun cur =>
  if cur = 0 then { hasMore := 1, cursor := 15, comments := pageOneComments }
  else if cur = 15 then { hasMore := 0, cursor := 30, comments := pageTwoComments }
  else { hasMore := 0, cursor := 0, comments := [] }

/-- C1: on the spec's two-page scenario with `maxComments = 20` and no
keywords, the harvester fetches both pages and its internal collected count
reaches 15 and then 20, but it yields only the first batch of 15: the loop
`break`s before the final `yield`, so the truncated batch of 5 comments from
page two is counted and then silently dropped, and the caller receives 15
comments in total, not 20. -/
theorem c1_two_page_scenario_eval :
    yields (harvest fetchScenarioA (some 20) [] false 10) = [pageOneComments] ∧
    collects (harvest fetchScenarioA (some 20) [] false 10) = [15, 20] ∧
    fetches (harvest fetchScenarioA (some 20) [] false 10) = [0, 15] ∧
    yieldedTotal (harvest fetchScenarioA (some 20) [] false 10) = 15 := by
  decide

/-- C2: for any fetcher, keyword list, callback and fuel, a harvest with a
positive `max_comments` keeps its collected count monotonically
non-decreasing (starting from 0), and the cumulative number of comments
yielded to the caller never exceeds the maximum. -/
theorem c2_quota_invariant (fetch : Nat → Page) (kws : List String) (cb : Bool)
    (fuel m : Nat) (hm : 0 < m) :
    List.Chain' (· ≤ ·) (0 :: collects (harvest fetch (some m) kws cb fuel)) ∧
    yieldedTotal (harvest fetch (some m) kws cb fuel) ≤ m := by
  refine ⟨collects_chain fetch (some m) kws cb fuel 1 0 0, ?_⟩
  have h := yieldedTotal_le fetch kws cb m hm fuel 1 0 0
  simpa [harvest] using h

/-- Witness for C2 at the concrete two-page scenario with maximum 20. -/
theorem c2_quota_invariant_witness :
    0 < 20 ∧
    (List.Chain' (· ≤ ·) (0 :: collects (harvest fetchScenarioA (some 20) [] false 10)) ∧
     yieldedTotal (harvest fetchScenarioA (some 20) [] false 10) ≤ 20) :=
  ⟨by decide, c2_quota_invariant fetchScenarioA [] false 10 20 (by decide)⟩

/-- Any truncation by quota only drops elements. -/
theorem truncateByQuota_subset (maxC : Option Nat) (collected : Nat) (l : List Comment) :
    truncateByQuota maxC collected l ⊆ l := by
  match maxC with
  | none => exact fun _ h => h
  | some m =>
    simp only [truncateByQuota]
    split
    · exact List.take_subset ..
    · exact fun _ h => h

/-- C4: every batch a harvest yields satisfies the keyword contract: with a
non-empty keyword list every comment in the batch contains some keyword as a
substring; with an empty keyword list the batch is exactly some fetched
page's raw comment list truncated only by the remaining quota. -/
theorem c4_keyword_filter (fetch : Nat → Page) (maxC : Option Nat) (kws : List String)
    (cb : Bool) (fuel hasMore cursor collected : Nat) :
    ∀ batch ∈ yields (harvestTrace fetch maxC kws cb fuel hasMore cursor collected),
      (kws ≠ [] → ∀ c ∈ batch, ∃ k ∈ kws, listContains k.data c.text.data = true) ∧
      (kws = [] → ∃ cur col, batch = truncateByQuota maxC col (fetch cur).comments) := by
  induction fuel generalizing hasMore cursor collected with
  | zero => simp [harvestTrace]
  | succ n ih =>
    simp only [harvestTrace]
    split
    · split
      · simpa only [yields_cons_fetch] using
          ih (fetch cursor).hasMore (fetch cursor).cursor collected
      · split
        · cases cb <;> simp
        · intro batch hbatch
          cases cb <;>
            · simp only [yields_cons_fetch, yields_cons_collect, yields_append,
                List.cons_append, List.nil_append, yields_cons_callback, yields_cons_sleep,
                yields_cons_yielded, yields_nil, List.mem_cons, Bool.false_eq_true, if_true,
                if_false] at hbatch
              rcases hbatch with rfl | hmem
              · constructor
                · intro hkws c hc
                  have hc' := truncateByQuota_subset maxC collected _ hc
                  rw [filterByKeywords, if_pos hkws] at hc'
                  rcases List.mem_filter.mp hc' with ⟨-, hpred⟩
                  exact List.any_eq_true.mp hpred
                · intro hkws
                  exact ⟨cursor, collected, by rw [filterByKeywords, if_neg (by simp [hkws])]⟩
              · exact ih _ _ _ batch hmem
    · simp

/-- One-page fetcher used by the C4 witness. -/
def fetchScenarioB : Nat → Page := fun cur =>
  if cur = 0 then { hasMore := 0, cursor := 1, comments := [⟨"apple pie"⟩, ⟨"banana"⟩] }
  else { hasMore := 0, cursor := 0, comments := [] }

/-- Witness for C4: with keyword list `["app"]`, the single yielded batch
keeps exactly the comment whose text contains `"app"`. -/
theorem c4_keyword_filter_witness :
    ([Comment.mk "apple pie"] ∈ yields (harvestTrace fetchScenarioB none ["app"] false 5 1 0 0)) ∧
    (∀ c ∈ [Comment.mk "apple pie"], ∃ k ∈ ["app"], listContains k.data c.text.data = true) :=
  ⟨by decide,
    (c4_keyword_filter fetchScenarioB none ["app"] false 5 1 0 0 _ (by decide)).1 (by decide)⟩

/-- C7: an empty page is not termination: its iteration contributes only the
fetch event (no filtering, no yield), and when the page still reports
`has_more` the loop proceeds directly to the next fetch. -/
theorem c7_empty_page_continues (fetch : Nat → Page) (maxC : Option Nat) (kws : List String)
    (cb : Bool) (fuel hasMore cursor collected : Nat)
    (hguard : hasMore ≠ 0 ∧ QuotaOpen maxC collected)
    (hempty : (fetch cursor).comments = [])
    (hmore : (fetch cursor).hasMore ≠ 0) :
    ∃ rest, harvestTrace fetch maxC kws cb (fuel + 2) hasMore cursor collected =
      Event.fetch cursor :: Event.fetch (fetch cursor).cursor :: rest := by
  simp only [harvestTrace]
  rw [if_pos hguard, if_pos hempty, if_pos ⟨hmore, hguard.2⟩]
  split
  · exact ⟨_, rfl⟩
  · split
    · exact ⟨_, rfl⟩
    · exact ⟨_, rfl⟩

/-- Fetcher with two consecutive empty pages that still report `has_more`. -/
def fetchScenarioC : Nat → Page := fun cur =>
  if cur = 0 then { hasMore := 1, cursor := 1, comments := [] }
  else if cur = 1 then { hasMore := 1, cursor := 2, comments := [] }
  else { hasMore := 0, cursor := 0, comments := [] }

/-- Witness for C7 at a concrete empty first page. -/
theorem c7_empty_page_continues_witness :
    (fetchScenarioC 0).comments = [] ∧
    ∃ rest, harvestTrace fetchScenarioC none [] false 3 1 0 0 =
      Event.fetch 0 :: Event.fetch 1 :: rest :=
  ⟨by decide,
    c7_empty_page_continues fetchScenarioC none [] false 1 1 0 0
      ⟨by decide, trivial⟩ (by decide) (by decide)⟩

/-- C10: two consecutive empty pages with `has_more` set are fetched
back-to-back: the two iterations contribute exactly their two fetch events —
no callback invocation (even when a callback is supplied), no
`crawl_interval` sleep, no yield, and an unchanged collected count. -/
theorem c10_empty_page_no_sleep (fetch : Nat → Page) (maxC : Option Nat) (kws : List String)
    (cb : Bool) (fuel hasMore cursor collected : Nat)
    (hguard : hasMore ≠ 0 ∧ QuotaOpen maxC collected)
    (h1 : (fetch cursor).comments = [])
    (h1m : (fetch cursor).hasMore ≠ 0)
    (h2 : (fetch (fetch cursor).cursor).comments = []) :
    harvestTrace fetch maxC kws cb (fuel + 2) hasMore cursor collected =
      Event.fetch cursor :: Event.fetch (fetch cursor).cursor ::
        harvestTrace fetch maxC kws cb fuel (fetch (fetch cursor).cursor).hasMore
          (fetch (fetch cursor).cursor).cursor collected := by
  simp only [harvestTrace]
  rw [if_pos hguard, if_pos h1, if_pos ⟨h1m, hguard.2⟩, if_pos h2]

/-- Witness for C10: the two empty pages of `fetchScenarioC` are fetched
back-to-back with a callback supplied. -/
theorem c10_empty_page_no_sleep_witness :
    (fetchScenarioC 0).comments = [] ∧ (fetchScenarioC 1).comments = [] ∧
    harvestTrace fetchScenarioC none [] true 4 1 0 0 =
      Event.fetch 0 :: Event.fetch 1 ::
        harvestTrace fetchScenarioC none [] true 2 1 2 0 :=
  ⟨by decide, by decide,
    c10_empty_page_no_sleep fetchScenarioC none [] true 2 1 0 0
      ⟨by decide, trivial⟩ (by decide) (by decide) (by decide)⟩

/-! ## Signing gateway (src/client.py, `Client.__process_req_params`)

Request parameters are an ordered association list with Python `dict`
semantics: setting an existing key replaces its value in place, setting a new
key appends it; `dict.update` folds the entries of the other dict in order.
The opaque evaluator `douyin_js_obj.call("sign", query, userAgent)` (from
`libs/douyin.js`, reverse-engineered third-party code outside this
repository) is a function argument `sign`. -/

/-- Python `d[k] = v` on an insertion-ordered dict. -/
def dictSet : List (String × String) → String → String → List (String × String)
  | [], k, v => [(k, v)]
  | (k', v') :: rest, k, v =>
    if k' = k then (k', v) :: rest else (k', v') :: dictSet rest k v

/-- Python `d.get(k)` on an insertion-ordered dict. -/
def dictGet : List (String × String) → String → Option String
  | [], _ => none
  | (k', v) :: rest, k => if k' = k then some v else dictGet rest k

/-- Python `d.update(other)`: fold the entries of `other` into `d` in order. -/
def dictUpdate : List (String × String) → List (String × String) → List (String × String)
  | d, [] => d
  | d, (k, v) :: rest => dictUpdate (dictSet d k v) rest

/-- The keys of a dict, in insertion order. -/
def dictKeys (d : List (String × String)) : List String := d.map Prod.fst

/-- Python `"&".join(l)`. -/
def joinAmp : List String → String
  | [] => ""
  | [x] => x
  | x :: y :: rest => x ++ "&" ++ joinAmp (y :: rest)

/-- The platform-identity constants `common_params` merged into every signed
request (src/client.py lines 41-58). -/
def commonParams : List (String × String) :=
  [("device_platform", "webapp"), ("aid", "6383"), ("channel", "channel_pc_web"),
   ("cookie_enabled", "true"), ("browser_language", "zh-CN"), ("browser_platform", "Win32"),
   ("browser_name", "Firefox"), ("browser_version", "110.0"), ("browser_online", "true"),
   ("engine_name", "Gecko"), ("os_name", "Windows"), ("os_version", "10"),
   ("engine_version", "109.0"), ("platform", "PC"), ("screen_width", "1920"),
   ("screen_height", "1200")]

/-- Serialization of a dict as `key=value` pairs joined by `&` in insertion
order: `"&".join([f"{k}={v}" for k, v in params.items()])`. -/
def buildQuery (d : List (String × String)) : String :=
  joinAmp (d.map fun kv => kv.1 ++ "=" ++ kv.2)

/-- The query string submitted to the evaluator for a given parameter map:
the map merged with the platform constants, serialized. -/
def signedQuery (params : List (String × String)) : String :=
  buildQuery (dictUpdate params commonParams)

/-- Embedding of `Client.__process_req_params`: an empty (or absent)
parameter map is returned unchanged (`if not params: return`); otherwise the
platform constants are merged in, the merged map is serialized, the
evaluator is called on the query string and the User-Agent, and its result
is stored under `"X-Bogus"`.  The Python function mutates `params` in place;
the embedding returns the post-state.  (The `window.localStorage` read on
line 39 is dead code — its value is never used — and is omitted.) -/
def processReqParams (sign : String → String → String) (ua : String)
    (params : List (String × String)) : List (String × String) :=
  if params = [] then params
  else
    let merged := dictUpdate params commonParams
    dictSet merged "X-Bogus" (sign (buildQuery merged) ua)

theorem dictGet_dictSet_self (d : List (String × String)) (k v : String) :
    dictGet (dictSet d k v) k = some v := by
  induction d with
  | nil => simp [dictSet, dictGet]
  | cons hd tl ih =>
    obtain ⟨k', v'⟩ := hd
    by_cases h : k' = k
    · simp [dictSet, dictGet, h]
    · simp [dictSet, dictGet, h, ih]

theorem dictGet_dictSet_ne (d : List (String × String)) (k v k₂ : String) (h : k₂ ≠ k) :
    dictGet (dictSet d k v) k₂ = dictGet d k₂ := by
  induction d with
  | nil =>
    have hne : ¬(k = k₂) := fun he => h he.symm
    simp [dictSet, dictGet, hne]
  | cons hd tl ih =>
    obtain ⟨k', v'⟩ := hd
    by_cases hk : k' = k
    · subst hk
      have hne : ¬(k' = k₂) := fun he => h he.symm
      simp [dictSet, dictGet, hne]
    · simp only [dictSet, if_neg hk]
      by_cases hk2 : k' = k₂
      · simp [dictGet, hk2]
      · simp [dictGet, hk2, ih]

theorem not_mem_dictKeys_dictSet (d : List (String × String)) (k v a : String)
    (ha : a ≠ k) (had : a ∉ dictKeys d) : a ∉ dictKeys (dictSet d k v) := by
  induction d with
  | nil => simpa [dictSet, dictKeys] using ha
  | cons hd tl ih =>
    obtain ⟨k', v'⟩ := hd
    simp only [dictKeys, List.map_cons, List.mem_cons, not_or] at had
    by_cases h : k' = k
    · simp only [dictSet, if_pos h, dictKeys, List.map_cons, List.mem_cons, not_or]
      exact ⟨had.1, had.2⟩
    · simp only [dictSet, if_neg h, dictKeys, List.map_cons, List.mem_cons, not_or]
      exact ⟨had.1, ih had.2⟩

theorem dictGet_dictUpdate_not_mem :
    ∀ (new d : List (String × String)) (k : String), k ∉ dictKeys new →
      dictGet (dictUpdate d new) k = dictGet d k := by
  intro new
  induction new with
  | nil => intro d k _; rfl
  | cons hd tl ih =>
    obtain ⟨k₁, v₁⟩ := hd
    intro d k hk
    simp only [dictKeys, List.map_cons, List.mem_cons, not_or] at hk
    rw [show dictUpdate d ((k₁, v₁) :: tl) = dictUpdate (dictSet d k₁ v₁) tl from rfl]
    rw [ih _ _ hk.2, dictGet_dictSet_ne _ _ _ _ hk.1]

theorem dictGet_dictUpdate_of_mem :
    ∀ (new d : List (String × String)) (k v : String), (k, v) ∈ new →
      (dictKeys new).Nodup → dictGet (dictUpdate d new) k = some v := by
  intro new
  induction new with
  | nil => intro d k v h; simp at h
  | cons hd tl ih =>
    obtain ⟨k₁, v₁⟩ := hd
    intro d k v hmem hnd
    simp only [dictKeys, List.map_cons, List.nodup_cons] at hnd
    rcases List.mem_cons.mp hmem with heq | htl
    · obtain ⟨rfl, rfl⟩ := Prod.mk.injEq .. ▸ heq
      rw [show dictUpdate d ((k, v) :: tl) = dictUpdate (dictSet d k v) tl from rfl]
      rw [dictGet_dictUpdate_not_mem tl _ _ hnd.1, dictGet_dictSet_self]
    · exact ih _ _ _ htl hnd.2

theorem dictSet_of_get_eq (d : List (String × String)) (k v : String)
    (h : dictGet d k = some v) : dictSet d k v = d := by
  induction d with
  | nil => simp [dictGet] at h
  | cons hd tl ih =>
    obtain ⟨k', v'⟩ := hd
    by_cases hk : k' = k
    · simp only [dictGet, if_pos hk, Option.some.injEq] at h
      simp [dictSet, hk, h]
    · simp only [dictGet, if_neg hk] at h
      simp [dictSet, hk, ih h]

theorem dictUpdate_eq_self :
    ∀ (new d : List (String × String)), (∀ kv ∈ new, dictGet d kv.1 = some kv.2) →
      dictUpdate d new = d := by
  intro new
  induction new with
  | nil => intro d _; rfl
  | cons hd tl ih =>
    obtain ⟨k₁, v₁⟩ := hd
    intro d h
    rw [show dictUpdate d ((k₁, v₁) :: tl) = dictUpdate (dictSet d k₁ v₁) tl from rfl]
    rw [dictSet_of_get_eq _ _ _ (h (k₁, v₁) (List.mem_cons_self ..))]
    exact ih d fun kv hkv => h kv (List.mem_cons_of_mem _ hkv)

theorem dictSet_append_of_not_mem (d : List (String × String)) (k v : String)
    (h : k ∉ dictKeys d) : dictSet d k v = d ++ [(k, v)] := by
  induction d with
  | nil => rfl
  | cons hd tl ih =>
    obtain ⟨k', v'⟩ := hd
    simp only [dictKeys, List.map_cons, List.mem_cons, not_or] at h
    have hne : ¬(k' = k) := fun he => h.1 he.symm
    simp [dictSet, hne, ih h.2]

theorem dictGet_append_left (d₁ d₂ : List (String × String)) (k v : String)
    (h : dictGet d₁ k = some v) : dictGet (d₁ ++ d₂) k = some v := by
  induction d₁ with
  | nil => simp [dictGet] at h
  | cons hd tl ih =>
    obtain ⟨k', v'⟩ := hd
    by_cases hk : k' = k
    · simp only [dictGet, if_pos hk, Option.some.injEq] at h
      simp [dictGet, hk, h]
    · simp only [dictGet, if_neg hk] at h
      simp [dictGet, hk, ih h]

theorem not_mem_dictKeys_dictUpdate :
    ∀ (new d : List (String × String)) (k : String), k ∉ dictKeys d → k ∉ dictKeys new →
      k ∉ dictKeys (dictUpdate d new) := by
  intro new
  induction new with
  | nil => intro d k h _; exact h
  | cons hd tl ih =>
    obtain ⟨k₁, v₁⟩ := hd
    intro d k hd' hnew
    simp only [dictKeys, List.map_cons, List.mem_cons, not_or] at hnew
    rw [show dictUpdate d ((k₁, v₁) :: tl) = dictUpdate (dictSet d k₁ v₁) tl from rfl]
    exact ih _ _ (not_mem_dictKeys_dictSet d k₁ v₁ k hnew.1 hd') hnew.2

theorem length_le_dictSet (d : List (String × String)) (k v : String) :
    d.length ≤ (dictSet d k v).length := by
  induction d with
  | nil => simp [dictSet]
  | cons hd tl ih =>
    obtain ⟨k', v'⟩ := hd
    by_cases hk : k' = k
    · simp [dictSet, hk]
    · simp only [dictSet, if_neg hk, List.length_cons]
      omega

theorem length_le_dictUpdate :
    ∀ (new d : List (String × String)), d.length ≤ (dictUpdate d new).length := by
  intro new
  induction new with
  | nil => intro d; exact le_refl _
  | cons hd tl ih =>
    obtain ⟨k₁, v₁⟩ := hd
    intro d
    exact le_trans (length_le_dictSet d k₁ v₁) (ih (dictSet d k₁ v₁))

theorem dictUpdate_ne_nil (d new : List (String × String)) (h : d ≠ []) :
    dictUpdate d new ≠ [] := by
  intro hc
  have h2 := length_le_dictUpdate new d
  rw [hc] at h2
  simp only [List.length_nil, Nat.le_zero, List.length_eq_zero] at h2
  exact h h2

theorem joinAmp_append_single :
    ∀ (l : List String) (x : String), l ≠ [] →
      joinAmp (l ++ [x]) = joinAmp l ++ "&" ++ x := by
  intro l
  induction l with
  | nil => intro x h; exact absurd rfl h
  | cons a tl ih =>
    intro x _
    cases tl with
    | nil => rfl
    | cons b rest =>
      have h := ih x (by simp)
      simp only [List.cons_append, List.append_eq, joinAmp] at h ⊢
      rw [h]
      simp [String.append_assoc]

theorem buildQuery_append_single (d : List (String × String)) (k v : String) (h : d ≠ []) :
    buildQuery (d ++ [(k, v)]) = buildQuery d ++ "&" ++ (k ++ "=" ++ v) := by
  simp only [buildQuery, List.map_append, List.map_cons, List.map_nil]
  exact joinAmp_append_single _ _ (by simpa using h)

theorem dictGet_eq_none_iff (d : List (String × String)) (k : String) :
    dictGet d k = none ↔ k ∉ dictKeys d := by
  induction d with
  | nil => simp [dictGet, dictKeys]
  | cons hd tl ih =>
    obtain ⟨k', v'⟩ := hd
    by_cases hk : k' = k
    · subst hk
      simp [dictGet, dictKeys]
    · simp only [dictGet, if_neg hk, dictKeys, List.map_cons, List.mem_cons, not_or]
      simp only [dictKeys] at ih
      rw [ih]
      constructor
      · intro h
        exact ⟨fun he => hk he.symm, h⟩
      · intro h
        exact h.2

/-- C5: signing a non-empty parameter map installs every platform-identity
constant, serializes the merged map as `k=v` pairs joined by `&` in
insertion order, submits that query and the User-Agent to the evaluator and
stores the evaluator's answer under `"X-Bogus"`; an empty map is returned
unchanged with no signature added. -/
theorem c5_signing_effect (sign : String → String → String) (ua : String)
    (params : List (String × String)) :
    (params = [] → processReqParams sign ua params = params) ∧
    (params ≠ [] →
      (∀ kv ∈ commonParams, dictGet (processReqParams sign ua params) kv.1 = some kv.2) ∧
      dictGet (processReqParams sign ua params) "X-Bogus" = some (sign (signedQuery params) ua)) := by
  constructor
  · intro h
    simp [processReqParams, h]
  · intro hne
    constructor
    · intro kv hkv
      have hxb : "X-Bogus" ∉ dictKeys commonParams := by decide
      have hkb : kv.1 ≠ "X-Bogus" := by
        intro he
        exact hxb (he ▸ List.mem_map_of_mem Prod.fst hkv)
      simp only [processReqParams, if_neg hne]
      rw [dictGet_dictSet_ne _ _ _ _ hkb]
      exact dictGet_dictUpdate_of_mem commonParams params kv.1 kv.2 hkv (by decide)
    · simp only [processReqParams, if_neg hne, signedQuery]
      exact dictGet_dictSet_self ..

/-- Witness for C5 at a concrete one-entry parameter map. -/
theorem c5_signing_effect_witness :
    ([("aweme_id", "7123")] : List (String × String)) ≠ [] ∧
    ((∀ kv ∈ commonParams,
        dictGet (processReqParams (fun _ _ => "sig") "UA" [("aweme_id", "7123")]) kv.1 =
          some kv.2) ∧
      dictGet (processReqParams (fun _ _ => "sig") "UA" [("aweme_id", "7123")]) "X-Bogus" =
        some ((fun _ _ => "sig") (signedQuery [("aweme_id", "7123")]) "UA")) :=
  ⟨by decide, (c5_signing_effect (fun _ _ => "sig") "UA" [("aweme_id", "7123")]).2 (by decide)⟩

/-- C6: signing is not idempotent.  For every not-yet-signed non-empty map,
the query submitted by a second signing extends the first query with the
stored `X-Bogus` entry, so the evaluator sees a different input; and there
is an evaluator (the platform's evaluator is opaque third-party code, so
any function is a possible behaviour) for which the second signature value
differs from the first. -/
theorem c6_signing_not_idempotent (ua : String) (params : List (String × String))
    (hne : params ≠ []) (hxb : dictGet params "X-Bogus" = none) :
    (∀ sign : String → String → String,
      signedQuery (processReqParams sign ua params) =
        signedQuery params ++ "&" ++ ("X-Bogus" ++ "=" ++ sign (signedQuery params) ua)) ∧
    (∃ sign : String → String → String,
      dictGet (processReqParams sign ua (processReqParams sign ua params)) "X-Bogus" ≠
        dictGet (processReqParams sign ua params) "X-Bogus") := by
  have hxbp : "X-Bogus" ∉ dictKeys params := (dictGet_eq_none_iff ..).mp hxb
  have hxbc : "X-Bogus" ∉ dictKeys commonParams := by decide
  have hmerged : "X-Bogus" ∉ dictKeys (dictUpdate params commonParams) :=
    not_mem_dictKeys_dictUpdate commonParams params _ hxbp hxbc
  have hmne : dictUpdate params commonParams ≠ [] := dictUpdate_ne_nil _ _ hne
  have key : ∀ sign : String → String → String,
      signedQuery (processReqParams sign ua params) =
        signedQuery params ++ "&" ++ ("X-Bogus" ++ "=" ++ sign (signedQuery params) ua) := by
    intro sign
    have honce : processReqParams sign ua params =
        dictUpdate params commonParams ++
          [("X-Bogus", sign (buildQuery (dictUpdate params commonParams)) ua)] := by
      simp only [processReqParams, if_neg hne]
      exact dictSet_append_of_not_mem _ _ _ hmerged
    have hcommon : ∀ kv ∈ commonParams,
        dictGet (processReqParams sign ua params) kv.1 = some kv.2 :=
      (c5_signing_effect sign ua params).2 hne |>.1
    have hupd : dictUpdate (processReqParams sign ua params) commonParams =
        processReqParams sign ua params :=
      dictUpdate_eq_self commonParams _ hcommon
    rw [signedQuery, hupd, honce, buildQuery_append_single _ _ _ hmne]
    rfl
  refine ⟨key, ⟨fun q _ => q, ?_⟩⟩
  have h1 : dictGet (processReqParams (fun q _ => q) ua params) "X-Bogus" =
      some (signedQuery params) := ((c5_signing_effect (fun q _ => q) ua params).2 hne).2
  have honcene : processReqParams (fun q _ => q) ua params ≠ [] := by
    simp only [processReqParams, if_neg hne]
    rw [dictSet_append_of_not_mem _ _ _ hmerged]
    simp
  have h2 : dictGet (processReqParams (fun q _ => q) ua
        (processReqParams (fun q _ => q) ua params)) "X-Bogus" =
      some (signedQuery (processReqParams (fun q _ => q) ua params)) :=
    ((c5_signing_effect (fun q _ => q) ua _).2 honcene).2
  rw [h1, h2, key (fun q _ => q)]
  intro hc
  have hlen := congrArg String.length (Option.some.injEq .. ▸ hc)
  have l1 : ("&" : String).length = 1 := rfl
  have l2 : ("X-Bogus" : String).length = 7 := rfl
  have l3 : ("=" : String).length = 1 := rfl
  simp only [String.length_append, l1, l2, l3] at hlen
  omega

/-- Witness for C6 at a concrete one-entry parameter map. -/
theorem c6_signing_not_idempotent_witness :
    ([("a", "1")] : List (String × String)) ≠ [] ∧
    dictGet [("a", "1")] "X-Bogus" = none ∧
    (∃ sign : String → String → String,
      dictGet (processReqParams sign "UA" (processReqParams sign "UA" [("a", "1")])) "X-Bogus" ≠
        dictGet (processReqParams sign "UA" [("a", "1")]) "X-Bogus") :=
  ⟨by decide, by decide,
    (c6_signing_not_idempotent "UA" [("a", "1")] (by decide) (by decide)).2⟩

/-! ## Drag-trajectory synthesis (src/utils.py, `get_track_simple` and `_get_tracks`)

`get_track_simple` is modelled over exact rationals.  Python computes with
binary floats, but on the inputs evaluated below every rounding and every
comparison sits far from a decision boundary (margin at least 1/50 against
error on the order of 1e-15), so the float run and the exact run produce the
same integer track; distance 1000 is excluded because there the float
accumulation does drift across a rounding boundary.  Python's `round` is
round-half-to-even, embedded as `pyRound`/`pyRoundR`. -/

/-- Python 3 `round` to the nearest integer, halves to the even neighbour. -/
def pyRound (q : ℚ) : ℤ :=
  if q - ⌊q⌋ < 1 / 2 then ⌊q⌋
  else if 1 / 2 < q - ⌊q⌋ then ⌊q⌋ + 1
  else if ⌊q⌋ % 2 = 0 then ⌊q⌋ else ⌊q⌋ + 1

/-- Python 3 `round` on a real argument (same definition as `pyRound`). -/
noncomputable def pyRoundR (x : ℝ) : ℤ :=
  if x - ⌊x⌋ < 1 / 2 then ⌊x⌋
  else if 1 / 2 < x - ⌊x⌋ then ⌊x⌋ + 1
  else if ⌊x⌋ % 2 = 0 then ⌊x⌋ else ⌊x⌋ + 1

/-- The `while current < distance` loop of `get_track_simple`: acceleration 4
below the 4/5 threshold, −3 above it, time step `t`, appending the rounded
per-step displacement.  `fuel` bounds the iteration count; `none` means the
fuel ran out before the loop finished. -/
def simpleLoop (distance mid t : ℚ) : Nat → ℚ → ℚ → List ℤ → Option (List ℤ)
  | 0, _, _, _ => none
  | fuel + 1, current, v, track =>
    if current < distance then
      let a : ℚ := if current < mid then 4 else -3
      let v0 := v
      let vNew := v0 + a * t
      let move := v0 * t + 1 / 2 * a * t * t
      simpleLoop distance mid t fuel (current + move) vNew (track ++ [pyRound move])
    else some track

/-- Embedding of `get_track_simple`: threshold `mid = distance * 4 / 5`,
time step `t = 0.2`, initial velocity 1, initial displacement 0. -/
def getTrackSimple (distance : ℚ) (fuel : Nat) : Option (List ℤ) :=
  simpleLoop distance (distance * 4 / 5) (1 / 5) fuel 0 1 []

/-- Embedding of `np.arange(start, stop, step)`: `⌈(stop−start)/step⌉`
equally spaced sample points. -/
def arange (start stop step : ℚ) : List ℚ :=
  (List.range (Int.toNat ⌈(stop - start) / step⌉)).map fun k : Nat => start + (k : ℚ) * step

/-- The loop body of `_get_tracks`, generic in the per-sample offset `g`:
state `(offsets, tracks)`, appending `g t` to the offsets and the first
difference `g t - offsets[-1]` to the tracks. -/
def offsetFold (g : ℚ → ℤ) (ts : List ℚ) (acc : List ℤ × List ℤ) : List ℤ × List ℤ :=
  ts.foldl (fun acc t => (acc.1 ++ [g t], acc.2 ++ [g t - acc.1.getLastD 0])) acc

/-- Modelled from the spec: the exponential ease-out curve
(`ease_out_expo`), the easing function named by `_get_tracks`'s caller.  It
is absent from the sources (the repository's `easing` module is not under
src/); the spec describes the eased policy as sampling a parametric
exponential ease-out curve, whose standard form is
`1 - 2^(-10 x)` with value 1 at `x = 1`. -/
noncomputable def easeOutExpo (x : ℝ) : ℝ :=
  if x = 1 then 1 else 1 - (2 : ℝ) ^ (-10 * x)

/-- Embedding of `_get_tracks(distance, seconds, ease_func)`: sample
`t ∈ arange(0, seconds, 0.1)`, take `offset = round(ease(t/seconds) *
distance)`, record first differences; starts from `offsets = [0]`,
`tracks = [0]` and returns `(offsets, tracks)`. -/
noncomputable def getTracksEased (distance : ℤ) (seconds : ℚ) (ease : ℝ → ℝ) :
    List ℤ × List ℤ :=
  offsetFold (fun t => pyRoundR (ease (((t : ℚ) : ℝ) / ((seconds : ℚ) : ℝ)) * (distance : ℝ)))
    (arange 0 seconds (1 / 10)) ([0], [0])

theorem getLastD_append_single {α : Type} (l : List α) (a d : α) :
    (l ++ [a]).getLastD d = a := by
  induction l generalizing d with
  | nil => rfl
  | cons x xs ih =>
    rw [List.cons_append, List.getLastD_cons]
    exact ih x

/-- The running track sum equals the last recorded offset. -/
theorem offsetFold_sum (g : ℚ → ℤ) :
    ∀ (ts : List ℚ) (acc : List ℤ × List ℤ), acc.2.sum = acc.1.getLastD 0 →
      (offsetFold g ts acc).2.sum = (offsetFold g ts acc).1.getLastD 0 := by
  intro ts
  induction ts with
  | nil => intro acc h; exact h
  | cons t ts ih =>
    intro acc h
    rw [show offsetFold g (t :: ts) acc =
      offsetFold g ts (acc.1 ++ [g t], acc.2 ++ [g t - acc.1.getLastD 0]) from rfl]
    apply ih
    rw [List.sum_append, getLastD_append_single]
    simp [h]

/-- The last offset produced by the fold is the offset of the last sample. -/
theorem offsetFold_fst_last (g : ℚ → ℤ) :
    ∀ (ts : List ℚ) (acc : List ℤ × List ℤ) (tl : ℚ), ts.getLast? = some tl →
      (offsetFold g ts acc).1.getLastD 0 = g tl := by
  intro ts
  induction ts with
  | nil => intro acc tl h; simp at h
  | cons t ts ih =>
    intro acc tl h
    cases ts with
    | nil =>
      simp only [List.getLast?_singleton, Option.some.injEq] at h
      subst h
      exact getLastD_append_single ..
    | cons t' ts' =>
      rw [List.getLast?_cons_cons] at h
      exact ih _ _ h

/-- Over two seconds, `arange` produces the 20 samples `0, 0.1, …, 1.9`;
the final one is `1.9`. -/
theorem arange_final : (arange 0 2 (1 / 10)).getLast? = some ((19 : ℚ) / 10) := by
  have hc : ⌈((2 : ℚ) - 0) / (1 / 10)⌉ = 20 := by norm_num
  have hn : Int.toNat ⌈((2 : ℚ) - 0) / (1 / 10)⌉ = 20 := by rw [hc]; rfl
  rw [arange, hn, List.range_succ, List.map_append]
  simp only [List.map_cons, List.map_nil]
  rw [List.getLast?_concat]
  norm_num

/-- The eased track telescopes: its total is the rounded offset of the final
sample `t = 1.9`, namely `round(ease(0.95) * distance)`. -/
theorem getTracksEased_sum (d : ℤ) (ease : ℝ → ℝ) :
    (getTracksEased d 2 ease).2.sum =
      pyRoundR (ease ((((19 : ℚ) / 10 : ℚ) : ℝ) / (((2 : ℚ)) : ℝ)) * (d : ℝ)) := by
  have h1 := offsetFold_sum
    (fun t => pyRoundR (ease (((t : ℚ) : ℝ) / (((2 : ℚ)) : ℝ)) * (d : ℝ)))
    (arange 0 2 (1 / 10)) ([0], [0]) (by simp)
  have h2 := offsetFold_fst_last
    (fun t => pyRoundR (ease (((t : ℚ) : ℝ) / (((2 : ℚ)) : ℝ)) * (d : ℝ)))
    (arange 0 2 (1 / 10)) ([0], [0]) ((19 : ℚ) / 10) arange_final
  rw [getTracksEased, h1, h2]

/-- Rounding a real strictly within a half-unit of the integer `n` gives `n`. -/
theorem pyRoundR_eq (x : ℝ) (n : ℤ) (h1 : (n : ℝ) - 1 / 2 < x) (h2 : x < (n : ℝ) + 1 / 2) :
    pyRoundR x = n := by
  rcases le_or_lt (n : ℝ) x with hge | hlt
  · have hfl : ⌊x⌋ = n := Int.floor_eq_iff.mpr ⟨hge, by linarith⟩
    rw [pyRoundR, hfl, if_pos (by linarith)]
  · have hfl : ⌊x⌋ = n - 1 := by
      apply Int.floor_eq_iff.mpr
      constructor
      · push_cast; linarith
      · push_cast; linarith
    rw [pyRoundR, hfl]
    rw [if_neg (by push_cast; linarith), if_pos (by push_cast; linarith)]
    omega

/-- Numeric bounds for `2^(9.5)`, the reciprocal of the final eased sample's
distance-to-one. -/
theorem rpow_nineteen_halves_bounds :
    724 < (2 : ℝ) ^ ((19 : ℝ) / 2) ∧ (2 : ℝ) ^ ((19 : ℝ) / 2) < 725 := by
  have hpos : (0 : ℝ) < (2 : ℝ) ^ ((19 : ℝ) / 2) :=
    Real.rpow_pos_of_pos (by norm_num) _
  have hsq : ((2 : ℝ) ^ ((19 : ℝ) / 2)) ^ (2 : ℕ) = 524288 := by
    rw [← Real.rpow_natCast ((2 : ℝ) ^ ((19 : ℝ) / 2)) 2,
      ← Real.rpow_mul (by norm_num : (0 : ℝ) ≤ 2)]
    rw [show ((19 : ℝ) / 2 * ((2 : ℕ) : ℝ)) = ((19 : ℕ) : ℝ) by push_cast; ring]
    rw [Real.rpow_natCast]
    norm_num
  constructor
  · nlinarith [hpos, hsq]
  · nlinarith [hpos, hsq]

/-- The value of the ease-out curve at the final sample point. -/
theorem easeOutExpo_val :
    easeOutExpo ((19 : ℝ) / 20) = 1 - ((2 : ℝ) ^ ((19 : ℝ) / 2))⁻¹ := by
  rw [easeOutExpo, if_neg (by norm_num)]
  rw [show ((-10 : ℝ) * (19 / 20)) = -((19 : ℝ) / 2) by ring]
  rw [Real.rpow_neg (by norm_num : (0 : ℝ) ≤ 2)]

/-- Cast normalization for the final sample point. -/
theorem final_sample_cast :
    ((((19 : ℚ) / 10 : ℚ) : ℝ) / (((2 : ℚ)) : ℝ)) = (19 : ℝ) / 20 := by
  push_cast
  ring

/-- For positive distances up to 362 the eased track total is exactly the
distance (the final rounding absorbs an error strictly between 0 and 1/2). -/
theorem eased_sum_eq_of_le (d : ℤ) (h0 : 0 < d) (h362 : d ≤ 362) :
    (getTracksEased d 2 easeOutExpo).2.sum = d := by
  rw [getTracksEased_sum, final_sample_cast, easeOutExpo_val]
  obtain ⟨hlb, hub⟩ := rpow_nineteen_halves_bounds
  have hcpos : (0 : ℝ) < (2 : ℝ) ^ ((19 : ℝ) / 2) := by linarith
  have hinvpos : (0 : ℝ) < ((2 : ℝ) ^ ((19 : ℝ) / 2))⁻¹ := inv_pos.mpr hcpos
  have hcc : (2 : ℝ) ^ ((19 : ℝ) / 2) * ((2 : ℝ) ^ ((19 : ℝ) / 2))⁻¹ = 1 :=
    mul_inv_cancel₀ (ne_of_gt hcpos)
  have hd : (0 : ℝ) < (d : ℝ) := by exact_mod_cast h0
  have hd2 : (d : ℝ) ≤ 362 := by exact_mod_cast h362
  apply pyRoundR_eq _ d
  · nlinarith [hlb, hd, hd2, hinvpos, hcc]
  · nlinarith [hlb, hd, hd2, hinvpos, hcc]

/-- At distance 1000 the final rounding error exceeds one pixel: the eased
track total is 999, not 1000. -/
theorem eased_sum_thousand : (getTracksEased 1000 2 easeOutExpo).2.sum = 999 := by
  rw [getTracksEased_sum, final_sample_cast, easeOutExpo_val]
  obtain ⟨hlb, hub⟩ := rpow_nineteen_halves_bounds
  have hcpos : (0 : ℝ) < (2 : ℝ) ^ ((19 : ℝ) / 2) := by linarith
  have hinvpos : (0 : ℝ) < ((2 : ℝ) ^ ((19 : ℝ) / 2))⁻¹ := inv_pos.mpr hcpos
  have hcc : (2 : ℝ) ^ ((19 : ℝ) / 2) * ((2 : ℝ) ^ ((19 : ℝ) / 2))⁻¹ = 1 :=
    mul_inv_cancel₀ (ne_of_gt hcpos)
  apply pyRoundR_eq _ 999
  · push_cast
    nlinarith [hlb, hub, hinvpos, hcc]
  · push_cast
    nlinarith [hlb, hub, hinvpos, hcc]

/-- C3 counterexample: at distance 10 the simple policy's deltas sum to 11,
not 10 — the loop stops once the (unrounded) displacement reaches the
distance, and the rounded per-step deltas do not compensate. -/
theorem c3_sum_counterexample :
    Option.map List.sum (getTrackSimple 10 30) = some 11 ∧
    Option.map List.sum (getTrackSimple 10 30) ≠ some 10 := by
  have h : Option.map List.sum (getTrackSimple 10 30) = some 11 := by
    norm_num [getTrackSimple, simpleLoop, pyRound]
  refine ⟨h, ?_⟩
  rw [h]
  intro hc
  exact absurd (Option.some.injEq .. ▸ hc) (by norm_num)

/-- C3 amended: the delta sums are not exactly the distance in general.  The
simple policy overshoots (sums 11, 103, 303 at distances 10, 100, 300); the
eased policy's total telescopes to `round(ease(0.95)·distance)`, which
equals the distance only while the final rounding error stays below a half
pixel (distances up to 362, hence 10, 100 and 300), and is 999 at
distance 1000. -/
theorem c3_track_sum_amended :
    (Option.map List.sum (getTrackSimple 10 30) = some 11 ∧
     Option.map List.sum (getTrackSimple 100 40) = some 103 ∧
     Option.map List.sum (getTrackSimple 300 70) = some 303) ∧
    (∀ d : ℤ, 0 < d → d ≤ 362 → (getTracksEased d 2 easeOutExpo).2.sum = d) ∧
    (getTracksEased 1000 2 easeOutExpo).2.sum = 999 := by
  refine ⟨⟨?_, ?_, ?_⟩, fun d h0 h362 => eased_sum_eq_of_le d h0 h362,
    eased_sum_thousand⟩
  · norm_num [getTrackSimple, simpleLoop, pyRound]
  · norm_num [getTrackSimple, simpleLoop, pyRound]
  · norm_num [getTrackSimple, simpleLoop, pyRound]

/-- Witness for the amended C3 at distance 300. -/
theorem c3_track_sum_amended_witness :
    (0 : ℤ) < 300 ∧ (300 : ℤ) ≤ 362 ∧ (getTracksEased 300 2 easeOutExpo).2.sum = 300 :=
  ⟨by decide, by decide, c3_track_sum_amended.2.1 300 (by decide) (by decide)⟩

/-! ## Slider-captcha gap location (src/utils.py, `Slide.clear_white` and
`Slide.discern`)

Images are row-major lists of 3-channel pixels.  The OpenCV primitives
(`imread`, `cvtColor`, `Canny`, `matchTemplate`/`minMaxLoc`) are third-party
library calls, held abstract in a record of fallible functions; a `none`
result stands for the exception the Python call raises (`cv2.imread`
returning `None` makes the subsequent attribute access or filter call
throw).  The bounding-box scan of `clear_white` is fully embedded. -/

/-- A BGR pixel. -/
def Pixel : Type := Nat × Nat × Nat

instance : DecidableEq Pixel := inferInstanceAs (DecidableEq (Nat × Nat × Nat))

/-- A row-major image. -/
def Image : Type := List (List Pixel)

instance : DecidableEq Image := inferInstanceAs (DecidableEq (List (List Pixel)))

/-- Python `len(set(img[x, y])) >= 2`: the pixel has at least two distinct
channel values, i.e. not all three are equal. -/
def pixelDistinct (p : Pixel) : Bool :=
  !(decide (p.1 = p.2.1 ∧ p.2.1 = p.2.2))

/-- Pixel access `img[x, y]` (always in range in the source; a constant
default keeps the embedding total). -/
def pixelAt (img : Image) (x y : Nat) : Pixel :=
  (img.getD x []).getD y (0, 0, 0)

/-- One update of `(min_x, min_y, max_x, max_y)` for a qualifying pixel,
with the source's exact `if/elif` structure: when `x ≤ min_x` the row
minimum is updated and the row maximum is *not* considered, and likewise for
columns. -/
def boundsUpdate (b : Nat × Nat × Nat × Nat) (x y : Nat) : Nat × Nat × Nat × Nat :=
  let minX := b.1
  let minY := b.2.1
  let maxX := b.2.2.1
  let maxY := b.2.2.2
  let rowPart : Nat × Nat := if x ≤ minX then (x, maxX)
    else if x ≥ maxX then (minX, x) else (minX, maxX)
  let colPart : Nat × Nat := if y ≤ minY then (y, maxY)
    else if y ≥ maxY then (minY, y) else (minY, maxY)
  (rowPart.1, colPart.1, rowPart.2, colPart.2)

/-- The scan of `clear_white`: for `x in range(1, rows)`, `y in
range(1, cols)`, update the bounds at every pixel with two distinct channel
values; the bounds start at `(255, 255, 0, 0)`. -/
def scanBounds (img : Image) : Nat × Nat × Nat × Nat :=
  let rows := img.length
  let cols := (img.headD []).length
  ((List.range rows).drop 1).foldl
    (fun b x =>
      ((List.range cols).drop 1).foldl
        (fun b y => if pixelDistinct (pixelAt img x y) then boundsUpdate b x y else b) b)
    (255, 255, 0, 0)

/-- The crop `img[min_x:max_x, min_y:max_y]` of `clear_white` (Python slices
clamp out-of-range bounds and give an empty slice when the lower bound is
not below the upper one, exactly like `drop`/`take` on ℕ). -/
def cropWhite (img : Image) : Image :=
  let b := scanBounds img
  ((img.drop b.1).take (b.2.2.1 - b.1)).map fun row => (row.drop b.2.1).take (b.2.2.2 - b.2.1)

/-- An image with zero height or zero width; OpenCV's `cvtColor` raises on
such an input. -/
def degenerateB (img : Image) : Bool :=
  decide (img.length = 0) || decide ((img.headD []).length = 0)

/-- The abstract OpenCV surface used by `Slide`: decoding the gap and the
background from disk, the two colour conversions, Canny edge detection and
the template-match location (`minMaxLoc`'s best-match corner `max_loc`). -/
structure CVPrims where
  imread : String → Option Image
  imreadBg : String → Option Image
  cvtColor : Image → Option Image
  grayToRGB : Image → Option Image
  canny : Image → Option Image
  matchLoc : Image → Image → Option (Nat × Nat)

/-- Embedding of `Slide.clear_white`: decode the gap image, then crop it to
the scanned bounding box.  A failed decode propagates as `none` (the Python
code would throw on `img.shape`). -/
def clearWhite (cv : CVPrims) (path : String) : Option Image :=
  (cv.imread path).map cropWhite

/-- Embedding of `Slide.template_match`: the returned value is the
horizontal coordinate `tl[0]` of the best-match location (the rectangle
drawing and diagnostic write have no bearing on the result). -/
def templateMatch (cv : CVPrims) (tpl target : Image) : Option Nat :=
  (cv.matchLoc tpl target).map fun tl => tl.1

/-- Embedding of `Slide.discern`: crop the gap, grayscale it, edge-detect,
decode the background, edge-detect it, convert both edge maps back to RGB
and return the template match's horizontal coordinate.  Each `bind`
propagates the exception of the corresponding Python call. -/
def discern (cv : CVPrims) (gapPath bgPath : String) : Option Nat :=
  (clearWhite cv gapPath).bind fun img1 =>
  (cv.cvtColor img1).bind fun gray =>
  (cv.canny gray).bind fun slide =>
  (cv.imreadBg bgPath).bind fun backRaw =>
  (cv.canny backRaw).bind fun back =>
  (cv.grayToRGB slide).bind fun slidePic =>
  (cv.grayToRGB back).bind fun backPic =>
  templateMatch cv slidePic backPic

theorem optMap_some {A B : Type} (f : A → B) (a : A) : Option.map f (some a) = some (f a) := rfl

theorem optBind_some {A B : Type} (f : A → Option B) (a : A) : (some a).bind f = f a := rfl

/-- A two-by-two background image with one non-uniform pixel. -/
def bgImageCE : Image :=
  [[(0, 0, 0), (1, 2, 3)], [(0, 0, 0), (0, 0, 0)]]

/-- Concrete primitives for the C8 counterexample: the gap image fails to
decode, the background decodes fine, `cvtColor` fails exactly on degenerate
inputs, everything else is total. -/
def cvPrimsCE : CVPrims where
  imread := fun _ => none
  imreadBg := fun _ => some bgImageCE
  cvtColor := fun i => if degenerateB i then none else some i
  grayToRGB := fun i => some i
  canny := fun i => some i
  matchLoc := fun _ _ => some (3, 0)

/-- C8 counterexample: `discern` also fails when the *gap* image cannot be
decoded — a case outside the claim's failure list (the background decodes,
and no bounding box is ever computed, degenerate or otherwise), yet no
match coordinate is returned. -/
theorem c8_gap_decode_counterexample :
    discern cvPrimsCE "gap.jpg" "bg.jpg" = none ∧
    cvPrimsCE.imreadBg "bg.jpg" = some bgImageCE ∧
    cvPrimsCE.imread "gap.jpg" = none :=
  ⟨rfl, rfl, rfl⟩

/-- C8 amended: under the documented behaviour of the OpenCV primitives
(`cvtColor` fails exactly on degenerate images; edge detection, grayscale
conversion and template matching are total), `discern` fails exactly when
the gap image cannot be decoded, the crop of the decoded gap is degenerate
(zero width or zero height), or the background cannot be decoded; in every
other case it returns the horizontal coordinate of the best template-match
location. -/
theorem c8_discern_failure_modes (cv : CVPrims) (gapPath bgPath : String)
    (hcvt : ∀ i, cv.cvtColor i = none ↔ degenerateB i = true)
    (hcanny : ∀ i, ∃ j, cv.canny i = some j)
    (hgray : ∀ i, ∃ j, cv.grayToRGB i = some j)
    (hmatch : ∀ a b, ∃ p, cv.matchLoc a b = some p) :
    (discern cv gapPath bgPath = none ↔
      (cv.imread gapPath = none ∨
        ∃ g, cv.imread gapPath = some g ∧
          (degenerateB (cropWhite g) = true ∨ cv.imreadBg bgPath = none))) ∧
    (∀ x, discern cv gapPath bgPath = some x →
      ∃ a b p, cv.matchLoc a b = some p ∧ x = p.1) := by
  constructor
  · cases hgap : cv.imread gapPath with
    | none => simp [discern, clearWhite, hgap]
    | some g =>
      simp only [discern, clearWhite, hgap, optMap_some, optBind_some]
      by_cases hdeg : degenerateB (cropWhite g) = true
      · have h1 : cv.cvtColor (cropWhite g) = none := (hcvt _).mpr hdeg
        simp [h1, hgap, hdeg]
      · have h1 : ∃ j, cv.cvtColor (cropWhite g) = some j := by
          cases h : cv.cvtColor (cropWhite g) with
          | none => exact absurd ((hcvt _).mp h) hdeg
          | some j => exact ⟨j, rfl⟩
        obtain ⟨gray, hgraye⟩ := h1
        obtain ⟨slide, hslide⟩ := hcanny gray
        cases hbg : cv.imreadBg bgPath with
        | none => simp [hgraye, hslide, hbg, hgap, hdeg]
        | some backRaw =>
          obtain ⟨back, hback⟩ := hcanny backRaw
          obtain ⟨slidePic, hsp⟩ := hgray slide
          obtain ⟨backPic, hbp⟩ := hgray back
          obtain ⟨p, hp⟩ := hmatch slidePic backPic
          simp [hgraye, hslide, hbg, hback, hsp, hbp, templateMatch, hp, hgap, hdeg]
  · intro x hx
    simp only [discern, clearWhite] at hx
    cases hgap : cv.imread gapPath with
    | none => rw [hgap] at hx; simp at hx
    | some g =>
      rw [hgap] at hx
      simp only [optMap_some, optBind_some] at hx
      cases hcvtv : cv.cvtColor (cropWhite g) with
      | none => rw [hcvtv] at hx; simp at hx
      | some gray =>
        rw [hcvtv] at hx
        simp only [optBind_some] at hx
        obtain ⟨slide, hslide⟩ := hcanny gray
        rw [hslide] at hx
        simp only [optBind_some] at hx
        cases hbg : cv.imreadBg bgPath with
        | none => rw [hbg] at hx; simp at hx
        | some backRaw =>
          rw [hbg] at hx
          simp only [optBind_some] at hx
          obtain ⟨back, hback⟩ := hcanny backRaw
          rw [hback] at hx
          simp only [optBind_some] at hx
          obtain ⟨slidePic, hsp⟩ := hgray slide
          rw [hsp] at hx
          simp only [optBind_some] at hx
          obtain ⟨backPic, hbp⟩ := hgray back
          rw [hbp] at hx
          simp only [optBind_some] at hx
          obtain ⟨p, hp⟩ := hmatch slidePic backPic
          rw [templateMatch, hp] at hx
          simp only [optMap_some, Option.some.injEq] at hx
          exact ⟨slidePic, backPic, p, hp, hx.symm⟩

/-- Primitives for the C8 witness: both images decode, the decoded gap has a
non-degenerate interior feature, `cvtColor` fails exactly on degenerate
inputs, everything else total. -/
def cvPrimsW : CVPrims where
  imread := fun _ => some
    [[(0, 0, 0), (0, 0, 0), (0, 0, 0), (0, 0, 0)],
     [(0, 0, 0), (1, 2, 3), (1, 2, 3), (0, 0, 0)],
     [(0, 0, 0), (1, 2, 3), (1, 2, 3), (0, 0, 0)],
     [(0, 0, 0), (0, 0, 0), (0, 0, 0), (0, 0, 0)]]
  imreadBg := fun _ => some bgImageCE
  cvtColor := fun i => if degenerateB i then none else some i
  grayToRGB := fun i => some i
  canny := fun i => some i
  matchLoc := fun _ _ => some (3, 0)

/-- Witness for the amended C8: with both images decodable and a
non-degenerate crop, `discern` succeeds and the failure characterization
holds. -/
theorem c8_discern_failure_modes_witness :
    (∀ i, cvPrimsW.cvtColor i = none ↔ degenerateB i = true) ∧
    ((discern cvPrimsW "gap.jpg" "bg.jpg" = none ↔
      (cvPrimsW.imread "gap.jpg" = none ∨
        ∃ g, cvPrimsW.imread "gap.jpg" = some g ∧
          (degenerateB (cropWhite g) = true ∨ cvPrimsW.imreadBg "bg.jpg" = none))) ∧
    (∀ x, discern cvPrimsW "gap.jpg" "bg.jpg" = some x →
      ∃ a b p, cvPrimsW.matchLoc a b = some p ∧ x = p.1)) := by
  have hcvt : ∀ i, cvPrimsW.cvtColor i = none ↔ degenerateB i = true := by
    intro i
    by_cases h : degenerateB i = true
    · simp [cvPrimsW, h]
    · simp [cvPrimsW, h]
  exact ⟨hcvt, c8_discern_failure_modes cvPrimsW "gap.jpg" "bg.jpg" hcvt
    (fun i => ⟨i, rfl⟩) (fun i => ⟨i, rfl⟩) (fun a b => ⟨(3, 0), rfl⟩)⟩

/-! ## Batch orchestrator concurrency (src/crawler.py,
`Crawler.batch_get_note_comments` and `Crawler.get_specified_awemes`)

Both orchestrators create `asyncio.Semaphore(os.cpu_count())` and run one
task per target item whose entire body sits inside `async with semaphore`
(`get_comments` and `get_aweme_detail`); the `async with` block re-releases
the permit both on normal return and when the body raises (the `try/except`
inside the body also never escapes the block without releasing).  Under
asyncio's single-threaded cooperative scheduling this is an interleaving of
acquire and finish steps, embedded as a transition system: `K` is the
semaphore size, each task is pending, in flight (holding one permit), or
done with a success flag (the failure path releases exactly like the
success path). -/

/-- The phase of one orchestrated task: not yet started, holding a permit
and fetching, or finished (`ok` records whether the body succeeded or its
exception was caught). -/
inductive TaskPhase where
  | pending
  | inflight
  | done (ok : Bool)
deriving DecidableEq

/-- Global orchestrator state: free permits of the semaphore plus the phase
of every task. -/
structure OrcState where
  avail : Nat
  tasks : List TaskPhase
deriving DecidableEq

/-- Number of tasks currently holding a permit (fetches in flight). -/
def inflightCount (ts : List TaskPhase) : Nat :=
  ts.countP fun t => decide (t = TaskPhase.inflight)

/-- One scheduler step: a pending task acquires a free permit and starts its
fetch, or an in-flight task finishes — successfully or by raising — and
releases its permit.  Release happens in both the success and the failure
rule. -/
inductive OrcStep : OrcState → OrcState → Prop where
  | acquire (s : OrcState) (i : Nat) :
      s.tasks.get? i = some TaskPhase.pending → 0 < s.avail →
      OrcStep s ⟨s.avail - 1, s.tasks.set i TaskPhase.inflight⟩
  | finish (s : OrcState) (i : Nat) (ok : Bool) :
      s.tasks.get? i = some TaskPhase.inflight →
      OrcStep s ⟨s.avail + 1, s.tasks.set i (TaskPhase.done ok)⟩

/-- The orchestrator's start state: a full permit pool of size `K` and `N`
pending tasks. -/
def orcInit (K N : Nat) : OrcState :=
  ⟨K, List.replicate N TaskPhase.pending⟩

/-- States an orchestrator run of gate size `K` over `N` items can reach. -/
inductive OrcReach (K N : Nat) : OrcState → Prop where
  | init : OrcReach K N (orcInit K N)
  | step {s s' : OrcState} : OrcReach K N s → OrcStep s s' → OrcReach K N s'

theorem countP_set_of_get (p : TaskPhase → Bool) :
    ∀ (l : List TaskPhase) (i : Nat) (a b : TaskPhase), l.get? i = some a →
      (l.set i b).countP p + (if p a then 1 else 0) =
        l.countP p + (if p b then 1 else 0) := by
  intro l
  induction l with
  | nil => intro i a b h; simp at h
  | cons hd tl ih =>
    intro i a b h
    cases i with
    | zero =>
      simp only [List.get?_cons_zero, Option.some.injEq] at h
      subst h
      simp only [List.set_cons_zero, List.countP_cons]
      omega
    | succ n =>
      simp only [List.get?_cons_succ] at h
      simp only [List.set_cons_succ, List.countP_cons]
      have := ih n a b h
      omega

/-- The permit-accounting invariant: free permits plus in-flight tasks
always total the gate size. -/
theorem orcReach_invariant (K N : Nat) :
    ∀ s, OrcReach K N s → inflightCount s.tasks + s.avail = K := by
  intro s h
  induction h with
  | init =>
    have hz : inflightCount (List.replicate N TaskPhase.pending) = 0 := by
      rw [inflightCount, List.countP_eq_zero]
      intro t ht
      rw [List.eq_of_mem_replicate ht]
      simp
    simp [orcInit, hz]
  | @step s1 s2 hr hstep ih =>
    cases hstep with
    | acquire i hget havail =>
      have hc := countP_set_of_get (fun t => decide (t = TaskPhase.inflight))
        s1.tasks i TaskPhase.pending TaskPhase.inflight hget
      simp only [inflightCount] at ih ⊢
      simp at hc
      omega
    | finish i ok hget =>
      have hc := countP_set_of_get (fun t => decide (t = TaskPhase.inflight))
        s1.tasks i TaskPhase.inflight (TaskPhase.done ok) hget
      simp only [inflightCount] at ih ⊢
      simp at hc
      omega

/-- C9: in every reachable orchestrator state at most `K` fetches are in
flight, and once every task has finished — whether it succeeded or failed —
all `K` permits are back in the pool (each acquired permit was released on
both paths). -/
theorem c9_concurrency_ceiling (K N : Nat) (s : OrcState) (h : OrcReach K N s) :
    inflightCount s.tasks ≤ K ∧
    ((∀ t ∈ s.tasks, t = TaskPhase.done true ∨ t = TaskPhase.done false) → s.avail = K) := by
  have hinv := orcReach_invariant K N s h
  constructor
  · omega
  · intro hdone
    have hz : inflightCount s.tasks = 0 := by
      rw [inflightCount, List.countP_eq_zero]
      intro t ht
      rcases hdone t ht with h1 | h1 <;> simp [h1]
    omega

/-- Witness for C9: gate size 2, three tasks, after one acquire step. -/
theorem c9_concurrency_ceiling_witness :
    inflightCount (OrcState.mk 1 [TaskPhase.inflight, TaskPhase.pending, TaskPhase.pending]).tasks ≤ 2 ∧
    ((∀ t ∈ (OrcState.mk 1 [TaskPhase.inflight, TaskPhase.pending, TaskPhase.pending]).tasks,
        t = TaskPhase.done true ∨ t = TaskPhase.done false) →
      (OrcState.mk 1 [TaskPhase.inflight, TaskPhase.pending, TaskPhase.pending]).avail = 2) :=
  c9_concurrency_ceiling 2 3 _
    (OrcReach.step OrcReach.init
      (OrcStep.acquire (orcInit 2 3) 0 (by decide) (by decide)))

end DouyinCrawler
